import Mathlib

/-!
# A verification model of `Pool` (src/Source/Pool.cpp)

Shallow embedding of the thread-pool scheduler implemented by `CThreadPool`
in `src/Source/Pool.cpp`.  The embedding keeps the source's structure:

* `TASK_RETURN` is the disposition enum a task callback returns.
* A callback is abstracted as the stream of dispositions it returns on its
  successive invocations (`Behavior`).  The two opaque user parameters
  `m_Param[0]`/`m_Param[1]` influence only what the callback does, which in
  this model is fully captured by that disposition stream, so they are not
  carried separately.
* `STaskInfo` mirrors the C++ struct: callback, task number, optional
  reference (by id) to a blocking completion counter, plus the number of
  invocations the callback has already received (the stream position).
* `PoolState` holds `m_TaskList` (the deque), the set of dequeued,
  currently-executing tasks (`running`), the completion counters (indexed
  by id), the fixed worker count, and ghost history fields used only to
  state properties: `members c` / `finished c` count the tasks constructed
  with a reference to counter `c` and the ones that reached a terminal
  disposition; `log` records every callback invocation
  `(task number, invocation index, returned disposition)`;
  `runRaises` counts the `ReleaseSemaphore(m_hSemaphores[TS_RUN], ...)`
  calls.
* Each pool operation is a function on `PoolState`; the concurrent parts
  (worker dequeue / execute) are steps of a labelled transition relation
  `Step`, with one step per critical-section-protected block of the source.
-/

namespace Pool

/-- The disposition enum returned by a task callback (header `Pool.h`):
`TR_OK` means the task is done; `TR_RERUN` means re-run it immediately;
`TR_REQUEUE` means push it back onto the queue. -/
inductive TASK_RETURN
  | TR_OK
  | TR_RERUN
  | TR_REQUEUE
deriving DecidableEq

open TASK_RETURN

/-- A task callback, abstracted as the stream of dispositions it returns on
its successive invocations.  Index `i` is the disposition returned by the
`i`-th invocation of this task's callback. -/
abbrev Behavior := Nat → TASK_RETURN

/-- `STaskInfo` from `Pool.cpp`: the callback, the task number passed to it,
and the optional pointer (modelled as a counter id) to the blocking
completion counter.  `invocations` is the task's position in its
disposition stream (how many times its callback has run). -/
structure STaskInfo where
  m_Task : Behavior
  m_TaskNumber : Nat
  m_pActionRef : Option Nat
  invocations : Nat

/-- The whole-system state: the task deque `m_TaskList`, the dequeued and
currently executing tasks, the completion counters, and the fixed thread
count, plus ghost history fields (`members`, `finished`, `log`,
`runRaises`) used to state the claims. -/
structure PoolState where
  m_TaskList : List STaskInfo
  running : List STaskInfo
  counters : Nat → Int
  members : Nat → Nat
  finished : Nat → Nat
  log : List (Nat × Nat × TASK_RETURN)
  threadCount : Nat
  runRaises : Nat

/-- The state right after `CThreadPool::Initialize(tc)`: empty queue, no
running task, all counters zero, `tc` worker threads. -/
def initState (tc : Nat) : PoolState :=
  { m_TaskList := []
    running := []
    counters := fun _ => 0
    members := fun _ => 0
    finished := fun _ => 0
    log := []
    threadCount := tc
    runRaises := 0 }

/-- `CThreadPool::GetNextTask`: under the task-list lock, if the deque is
nonempty remove and return its front element; otherwise report failure and
leave the deque untouched.  Returns the dequeued task (if any) together
with the deque that remains. -/
def GetNextTask : List STaskInfo → Option STaskInfo × List STaskInfo
  | [] => (none, [])
  | t :: rest => (some t, rest)

/-- Iterate `GetNextTask`: `iterDequeue l n` performs `n` dequeues and then
one more, returning that `(n+1)`-st result. -/
def iterDequeue (l : List STaskInfo) : Nat → Option STaskInfo × List STaskInfo
  | 0 => GetNextTask l
  | n + 1 => iterDequeue (GetNextTask l).2 n

/-- One iteration of the enqueue loop in `CThreadPool::RunTask`: construct
`STaskInfo(func, param0, param1, i, block ? &blockwait : NULL)` —
whose constructor increments the referenced counter once — and
`push_back` it.  The ghost `members` count records the construction. -/
def pushTaskCtor (s : PoolState) (beh : Behavior) (i : Nat) (ref : Option Nat) :
    PoolState :=
  { s with
    m_TaskList := s.m_TaskList ++ [⟨beh, i, ref, 0⟩]
    counters := fun x => if ref = some x then s.counters x + 1 else s.counters x
    members := fun x => if ref = some x then s.members x + 1 else s.members x }

/-- The enqueue loop of `CThreadPool::RunTask`, run under the task-list
lock: tasks `0 .. n-1` are constructed and pushed in order. -/
def runTaskEnqueueAux (s : PoolState) (beh : Behavior) (block : Bool) (c : Nat) :
    Nat → PoolState
  | 0 => s
  | n + 1 =>
      pushTaskCtor (runTaskEnqueueAux s beh block c n) beh n
        (if block then some c else none)

/-- The state effect of `CThreadPool::RunTask(func, p0, p1, numtimes, block)`:
enqueue `numtimes` tasks (each constructor ticking the fresh blocking
counter `c` when `block` is set), then, if the pool has workers —
`m_hSemaphores[TS_RUN]` is non-null exactly when `thread_count > 0` —
release the run semaphore once. -/
def runTaskEnqueue (s : PoolState) (beh : Behavior) (N : Nat) (block : Bool)
    (c : Nat) : PoolState :=
  let s1 := runTaskEnqueueAux s beh block c N
  { s1 with runRaises := s1.runRaises + (if 0 < s.threadCount then 1 else 0) }

/-- `CThreadPool::RunTask` also returns a `bool`; the source ends with
`return true;` unconditionally. -/
def RunTask (s : PoolState) (beh : Behavior) (N : Nat) (block : Bool) (c : Nat) :
    PoolState × Bool :=
  (runTaskEnqueue s beh N block c, true)

/-- The guard of the spin-wait in `RunTask`:
`if (m_hThreads.size() && block) { while (blockwait) Sleep(1); }`.
The calling thread enters the wait loop exactly when this is `true`. -/
def runTaskWaitGuard (s : PoolState) (block : Bool) : Bool :=
  (decide (0 < s.threadCount)) && block

/-- The worker's rerun loop
`do { ret = task.m_Task(...); } while (ret == TR_RERUN);`:
starting from stream position `start`, keep invoking until a disposition
other than `TR_RERUN` comes back.  Fuel bounds the number of invocations;
`none` means the loop did not finish within the fuel (a callback that
returns `TR_RERUN` forever makes the worker loop forever).  On success the
result is the final disposition together with the stream position after
the last invocation. -/
def rerunLoop (beh : Behavior) (start : Nat) : Nat → Option (TASK_RETURN × Nat)
  | 0 => none
  | fuel + 1 =>
      if beh start = TR_RERUN then rerunLoop beh (start + 1) fuel
      else some (beh start, start + 1)

/-- The ghost log entries produced by invoking task `t` at stream positions
`t.invocations, ..., stop - 1`. -/
def invocationLog (t : STaskInfo) (stop : Nat) : List (Nat × Nat × TASK_RETURN) :=
  (List.range (stop - t.invocations)).map
    (fun k => (t.m_TaskNumber, t.invocations + k, t.m_Task (t.invocations + k)))

/-- A worker executing one dequeued task (`WorkerThreadProc` body): run the
rerun loop; if the final disposition is `TR_REQUEUE`, push the same task
back onto the tail of the deque (no counter access, no semaphore
release); otherwise, if the task carries an action reference, decrement
that counter (the terminal disposition). -/
def execTask (s : PoolState) (t : STaskInfo) (fuel : Nat) : Option PoolState :=
  match rerunLoop t.m_Task t.invocations fuel with
  | none => none
  | some (ret, stop) =>
      let s1 := { s with log := s.log ++ invocationLog t stop }
      if ret = TR_REQUEUE then
        some { s1 with m_TaskList := s1.m_TaskList ++ [{ t with invocations := stop }] }
      else
        some { s1 with
          counters := fun x =>
            if t.m_pActionRef = some x then s1.counters x - 1 else s1.counters x
          finished := fun x =>
            if t.m_pActionRef = some x then s1.finished x + 1 else s1.finished x }

/-- `CThreadPool::PurgeAllPendingTasks`: under the task-list lock,
`m_TaskList.clear()` — nothing else is touched and no callback runs. -/
def PurgeAllPendingTasks (s : PoolState) : PoolState :=
  { s with m_TaskList := [] }

/-- The iteration of `CThreadPool::Flush` over the queued tasks: each task's
callback is invoked exactly once — the returned disposition is discarded
by the source (`task->m_Task(...)` with the result unused) — and then, if
the task carries an action reference, that counter is decremented,
independently of the disposition. -/
def flushList (s : PoolState) : List STaskInfo → PoolState
  | [] => s
  | t :: rest =>
      flushList
        { s with
          log := s.log ++ [(t.m_TaskNumber, t.invocations, t.m_Task t.invocations)]
          counters := fun x =>
            if t.m_pActionRef = some x then s.counters x - 1 else s.counters x
          finished := fun x =>
            if t.m_pActionRef = some x then s.finished x + 1 else s.finished x }
        rest

/-- `CThreadPool::Flush`: under the task-list lock, iterate over the current
queue contents, then `m_TaskList.clear()`. -/
def Flush (s : PoolState) : PoolState :=
  { flushList s s.m_TaskList with m_TaskList := [] }

/-- `CThreadPool::GetNumThreads` returns `(UINT)m_hThreads.size()`: the
fixed worker count truncated through the 32-bit `UINT` cast. -/
def GetNumThreads (s : PoolState) : Nat :=
  s.threadCount % 2 ^ 32

/-- Reinterpretation of an unsigned 32-bit value as a signed `int`
(two's complement), as done by passing the unsigned sum
`sysinfo.dwNumberOfProcessors + core_count_adjustment` to
`std::max<int>`. -/
def toSigned32 (n : Nat) : Int :=
  if n % 2 ^ 32 < 2 ^ 31 then ((n % 2 ^ 32 : Nat) : Int)
  else ((n % 2 ^ 32 : Nat) : Int) - 2 ^ 32

/-- The unsigned 32-bit sum `dwNumberOfProcessors + core_count_adjustment`
computed by the two-argument constructor. -/
def coreSum32 (cores : Nat) (adj : Int) : Nat :=
  (((cores : Int) + adj).emod (2 ^ 32)).toNat

/-- The thread count resolved by the two-argument constructor
`CThreadPool(threads_per_core, core_count_adjustment)`:
`threads_per_core * (size_t)std::max<int>(1, cores + adjustment)`,
computed in `size_t` (64-bit) arithmetic. -/
def resolvedThreadCount (tpc : Nat) (adj : Int) (cores : Nat) : Nat :=
  (tpc * (max 1 (toSigned32 (coreSum32 cores adj))).toNat) % 2 ^ 64

/-- `IThreadPool::Create(threads_per_core, core_count_adjustment)` on a
machine with `cores` detected processors. -/
def createPerCore (tpc : Nat) (adj : Int) (cores : Nat) : PoolState :=
  initState (resolvedThreadCount tpc adj cores)

/-- `IThreadPool::Create(thread_count)` (the `size_t` overload). -/
def createCount (tc : Nat) : PoolState :=
  initState (tc % 2 ^ 64)

/-- The polling loop of `CThreadPool::WaitForAllTasks` for a pool with
workers: `while (!m_TaskList.empty()) Sleep(1);`.  `obs n` tells whether
the concurrently evolving queue is observed empty at the `n`-th check; the
loop exits at the first such check.  The fuel bounds the number of polls
examined; `none` means the loop was still running after `fuel` polls. -/
def waitLoop (obs : Nat → Bool) : Nat → Option Nat
  | 0 => none
  | fuel + 1 =>
      if obs 0 then some 0
      else Option.map (· + 1) (waitLoop (fun k => obs (k + 1)) fuel)

/-- `CThreadPool::WaitForAllTasks(milliseconds)`: with at least one worker,
poll queue emptiness (the `milliseconds` argument is received but never
read by the source); with zero workers, call `Flush`.  Result: the final
pool state and, for the polling branch, the index of the poll at which
the loop exited (`none` if it was still spinning after `fuel` polls). -/
def WaitForAllTasks (s : PoolState) (milliseconds : Nat) (obs : Nat → Bool)
    (fuel : Nat) : PoolState × Option Nat :=
  if s.threadCount ≠ 0 then (s, waitLoop obs fuel) else (Flush s, some 0)

/-- Number of tasks in `l` holding a reference to counter `c`. -/
def refCount (l : List STaskInfo) (c : Nat) : Nat :=
  l.countP (fun t => t.m_pActionRef = some c)

/-- Labels naming which pool operation a transition performs. -/
inductive Label
  | runTask
  | dequeue
  | finish
  | purge
  | flush
deriving DecidableEq

/-- The small-step transition relation of the pool.  Each constructor is one
lock-protected block of the source:

* `runTask`: a thread calls `RunTask`; a blocking call's counter is a fresh
  stack variable, so its id has never been used (`members c = 0`).
* `dequeue`: a worker (so the pool has workers) pops the front task and
  starts executing it.
* `finish`: a worker finishes executing a dequeued task: the rerun loop
  terminates within `fuel` invocations and the final disposition is applied.
* `purge` / `flush`: any thread calls the corresponding pool operation. -/
inductive Step : Label → PoolState → PoolState → Prop
  | runTask (s : PoolState) (beh : Behavior) (N : Nat) (block : Bool) (c : Nat)
      (hfresh : block = true → s.members c = 0) :
      Step .runTask s (runTaskEnqueue s beh N block c)
  | dequeue (s : PoolState) (t : STaskInfo) (rest : List STaskInfo)
      (hw : 0 < s.threadCount) (hq : s.m_TaskList = t :: rest) :
      Step .dequeue s { s with m_TaskList := rest, running := s.running ++ [t] }
  | finish (s : PoolState) (t : STaskInfo) (l1 l2 : List STaskInfo) (fuel : Nat)
      (s' : PoolState) (hw : 0 < s.threadCount) (hr : s.running = l1 ++ t :: l2)
      (hex : execTask { s with running := l1 ++ l2 } t fuel = some s') :
      Step .finish s s'
  | purge (s : PoolState) : Step .purge s (PurgeAllPendingTasks s)
  | flush (s : PoolState) : Step .flush s (Flush s)

/-- Reachability by any sequence of steps. -/
abbrev Reaches (s s' : PoolState) : Prop :=
  Relation.ReflTransGen (fun a b => ∃ l, Step l a b) s s'

/-- Reachability by steps whose labels all satisfy `P`. -/
abbrev ReachesVia (P : Label → Prop) (s s' : PoolState) : Prop :=
  Relation.ReflTransGen (fun a b => ∃ l, P l ∧ Step l a b) s s'

/-- The completion-counter invariant: every counter equals the number of
tasks constructed with a reference to it minus the number of those that
reached a terminal disposition, and the member tasks still present in the
system (queued or executing) together with the finished ones never exceed
the constructed ones. -/
def Inv (s : PoolState) : Prop := ∀ c : Nat,
  s.counters c = (s.members c : Int) - (s.finished c : Int)
  ∧ refCount s.m_TaskList c + refCount s.running c + s.finished c ≤ s.members c

/-- The number of member tasks of counter `c` that have left the system
without reaching a terminal disposition (they were discarded by a purge):
constructed tasks minus the ones still queued, still executing, or
finished.  It can only grow, and the counter always dominates it. -/
def slack (s : PoolState) (c : Nat) : Nat :=
  s.members c - (refCount s.m_TaskList c + refCount s.running c + s.finished c)

/-- A queue holding one blocking task whose callback returns `TR_REQUEUE`
on its first invocation (and `TR_OK` afterwards), with its completion
counter at `1`. -/
def requeueOnceState : PoolState :=
  { initState 0 with
    m_TaskList :=
      [⟨fun i => if i = 0 then TASK_RETURN.TR_REQUEUE else TASK_RETURN.TR_OK,
        0, some 0, 0⟩]
    counters := fun x => if x = 0 then 1 else 0
    members := fun x => if x = 0 then 1 else 0 }

/-- The requeue-forever task used to exhibit a worker requeue transition. -/
def requeueTask : STaskInfo :=
  ⟨fun _ => TASK_RETURN.TR_REQUEUE, 0, some 0, 0⟩

/-- A one-worker pool state in which `requeueTask` has been dequeued and is
executing, its completion counter at `1`. -/
def requeueRunningState : PoolState :=
  { initState 1 with
    running := [requeueTask]
    counters := fun x => if x = 0 then 1 else 0
    members := fun x => if x = 0 then 1 else 0 }

/-- A blocking task whose callback is immediately done (`TR_OK`). -/
def okTask : STaskInfo :=
  ⟨fun _ => TASK_RETURN.TR_OK, 0, some 0, 0⟩

/-- The state a worker produces by executing `okTask` on a fresh one-worker
pool: the terminal branch of `execTask`. -/
def okExecResult : PoolState :=
  { initState 1 with
    log := (initState 1).log ++ invocationLog okTask 1
    counters := fun x =>
      if okTask.m_pActionRef = some x then (initState 1).counters x - 1
      else (initState 1).counters x
    finished := fun x =>
      if okTask.m_pActionRef = some x then (initState 1).finished x + 1
      else (initState 1).finished x }

/-! ## Characterizations of the loops -/

theorem runTaskEnqueueAux_m_TaskList (s : PoolState) (beh : Behavior)
    (block : Bool) (c : Nat) (N : Nat) :
    (runTaskEnqueueAux s beh block c N).m_TaskList
      = s.m_TaskList
        ++ (List.range N).map (fun i => ⟨beh, i, if block then some c else none, 0⟩) := by
  induction N with
  | zero => simp [runTaskEnqueueAux]
  | succ n ih =>
      simp [runTaskEnqueueAux, pushTaskCtor, ih, List.range_succ]

theorem runTaskEnqueueAux_counters (s : PoolState) (beh : Behavior)
    (block : Bool) (c : Nat) (N : Nat) (x : Nat) :
    (runTaskEnqueueAux s beh block c N).counters x
      = s.counters x + (if block = true ∧ x = c then (N : Int) else 0) := by
  induction N with
  | zero => simp [runTaskEnqueueAux]
  | succ n ih =>
      simp only [runTaskEnqueueAux, pushTaskCtor, ih]
      by_cases hb : block = true
      · by_cases hx : x = c
        · simp [hb, hx]; push_cast; ring
        · have hcx : ¬c = x := fun h => hx h.symm
          simp [hb, hx, hcx]
      · simp [hb]

theorem runTaskEnqueueAux_members (s : PoolState) (beh : Behavior)
    (block : Bool) (c : Nat) (N : Nat) (x : Nat) :
    (runTaskEnqueueAux s beh block c N).members x
      = s.members x + (if block = true ∧ x = c then N else 0) := by
  induction N with
  | zero => simp [runTaskEnqueueAux]
  | succ n ih =>
      simp only [runTaskEnqueueAux, pushTaskCtor, ih]
      by_cases hb : block = true
      · by_cases hx : x = c
        · simp [hb, hx]; omega
        · have hcx : ¬c = x := fun h => hx h.symm
          simp [hb, hx, hcx]
      · simp [hb]

theorem runTaskEnqueueAux_frame (s : PoolState) (beh : Behavior)
    (block : Bool) (c : Nat) (N : Nat) :
    (runTaskEnqueueAux s beh block c N).running = s.running
      ∧ (runTaskEnqueueAux s beh block c N).finished = s.finished
      ∧ (runTaskEnqueueAux s beh block c N).log = s.log
      ∧ (runTaskEnqueueAux s beh block c N).threadCount = s.threadCount
      ∧ (runTaskEnqueueAux s beh block c N).runRaises = s.runRaises := by
  induction N with
  | zero => simp [runTaskEnqueueAux]
  | succ n ih => simpa [runTaskEnqueueAux, pushTaskCtor] using ih

theorem refCount_cons (t : STaskInfo) (l : List STaskInfo) (c : Nat) :
    refCount (t :: l) c
      = (if t.m_pActionRef = some c then 1 else 0) + refCount l c := by
  simp only [refCount, List.countP_cons]
  by_cases h : t.m_pActionRef = some c <;> simp [h] <;> omega

theorem refCount_append (l1 l2 : List STaskInfo) (c : Nat) :
    refCount (l1 ++ l2) c = refCount l1 c + refCount l2 c := by
  simp [refCount, List.countP_append]

theorem flushList_char (l : List STaskInfo) : ∀ s : PoolState,
    (flushList s l).m_TaskList = s.m_TaskList
    ∧ (flushList s l).running = s.running
    ∧ (flushList s l).log
        = s.log ++ l.map (fun t => (t.m_TaskNumber, t.invocations, t.m_Task t.invocations))
    ∧ (∀ x, (flushList s l).counters x = s.counters x - refCount l x)
    ∧ (∀ x, (flushList s l).finished x = s.finished x + refCount l x)
    ∧ (flushList s l).members = s.members
    ∧ (flushList s l).threadCount = s.threadCount
    ∧ (flushList s l).runRaises = s.runRaises := by
  induction l with
  | nil => intro s; simp [flushList, refCount]
  | cons t rest ih =>
      intro s
      obtain ⟨h1, h2, h3, h4, h5, h6, h7, h8⟩ := ih
        { s with
          log := s.log ++ [(t.m_TaskNumber, t.invocations, t.m_Task t.invocations)]
          counters := fun x =>
            if t.m_pActionRef = some x then s.counters x - 1 else s.counters x
          finished := fun x =>
            if t.m_pActionRef = some x then s.finished x + 1 else s.finished x }
      refine ⟨?_, ?_, ?_, ?_, ?_, ?_, ?_, ?_⟩
      · simpa [flushList] using h1
      · simpa [flushList] using h2
      · simp only [flushList] at h3 ⊢
        simp [h3]
      · intro x
        simp only [flushList] at h4 ⊢
        rw [h4 x, refCount_cons]
        by_cases h : t.m_pActionRef = some x <;> simp [h] <;> push_cast <;> ring
      · intro x
        simp only [flushList] at h5 ⊢
        rw [h5 x, refCount_cons]
        by_cases h : t.m_pActionRef = some x <;> simp [h] <;> omega
      · simpa [flushList] using h6
      · simpa [flushList] using h7
      · simpa [flushList] using h8

theorem GetNextTask_eq (l : List STaskInfo) : GetNextTask l = (l.head?, l.tail) := by
  cases l <;> simp [GetNextTask]

theorem iterDequeue_eq (j : Nat) : ∀ l : List STaskInfo,
    iterDequeue l j = (l[j]?, l.drop (j + 1)) := by
  induction j with
  | zero => intro l; cases l <;> simp [iterDequeue, GetNextTask]
  | succ n ih =>
      intro l
      cases l with
      | nil => simp [iterDequeue, GetNextTask, ih]
      | cons t rest => simp [iterDequeue, GetNextTask, ih]

theorem rerunLoop_eq (beh : Behavior) (k : Nat) : ∀ start fuel : Nat,
    (∀ i, i < k → beh (start + i) = TASK_RETURN.TR_RERUN) →
    beh (start + k) ≠ TASK_RETURN.TR_RERUN → k < fuel →
    rerunLoop beh start fuel = some (beh (start + k), start + k + 1) := by
  induction k with
  | zero =>
      intro start fuel h1 h2 h3
      cases fuel with
      | zero => omega
      | succ f =>
          simp only [Nat.add_zero] at h2
          simp [rerunLoop, h2]
  | succ n ih =>
      intro start fuel h1 h2 h3
      cases fuel with
      | zero => omega
      | succ f =>
          have hs : beh start = TASK_RETURN.TR_RERUN := by
            simpa using h1 0 (by omega)
          have harr : start + 1 + n = start + (n + 1) := by omega
          have := ih (start + 1) f
            (fun i hi => by
              have := h1 (i + 1) (by omega)
              have harr2 : start + 1 + i = start + (i + 1) := by omega
              rw [harr2]; exact this)
            (by rw [harr]; exact h2) (by omega)
          rw [harr] at this
          simp [rerunLoop, hs, this]

theorem waitLoop_never_empty (fuel : Nat) :
    waitLoop (fun _ => false) fuel = none := by
  induction fuel with
  | zero => rfl
  | succ f ih => simp [waitLoop, ih]

/-! ## Claims -/

/-- **C5.** Dequeue is FIFO: on a nonempty queue `GetNextTask` removes and
returns the earliest-enqueued task (the front; enqueue appends at the
tail), and on an empty queue it signals empty without modifying the queue
(and, being a total function of the queue, without blocking).  A single
`RunTask(numtimes = N)` call enqueues its `N` tasks in sequence-number
order `0..N-1`, so absent `Requeue` they are dequeued in that order. -/
theorem claim_C5 :
    (∀ (t : STaskInfo) (rest : List STaskInfo),
        GetNextTask (t :: rest) = (some t, rest))
    ∧ GetNextTask [] = (none, [])
    ∧ (∀ (s : PoolState) (beh : Behavior) (N : Nat) (block : Bool) (c : Nat),
        (runTaskEnqueue s beh N block c).m_TaskList
          = s.m_TaskList
            ++ (List.range N).map
                (fun i => ⟨beh, i, if block then some c else none, 0⟩))
    ∧ (∀ (s : PoolState) (beh : Behavior) (N : Nat) (block : Bool) (c : Nat)
        (j : Nat), s.m_TaskList = [] → j < N →
        (iterDequeue (runTaskEnqueue s beh N block c).m_TaskList j).1
          = some ⟨beh, j, if block then some c else none, 0⟩) := by
  refine ⟨fun t rest => rfl, rfl, ?_, ?_⟩
  · intro s beh N block c
    simpa [runTaskEnqueue] using runTaskEnqueueAux_m_TaskList s beh block c N
  · intro s beh N block c j hempty hj
    have hlist := runTaskEnqueueAux_m_TaskList s beh block c N
    simp only [runTaskEnqueue]
    rw [iterDequeue_eq]
    simp [hlist, hempty, hj]

/-- **C5 (witness).** Concrete instance: three tasks enqueued by one call
are dequeued with task number `j` coming `j`-th. -/
theorem claim_C5_witness :
    (iterDequeue
        (runTaskEnqueue (initState 1) (fun _ => TASK_RETURN.TR_OK) 3 false 0).m_TaskList
        1).1
      = some ⟨(fun _ => TASK_RETURN.TR_OK), 1, none, 0⟩ := by
  have h := claim_C5.2.2.2 (initState 1) (fun _ => TASK_RETURN.TR_OK) 3 false 0 1
    rfl (by decide)
  simpa using h

/-- **C10.** `RunTask` returns `true` on every invocation — the source ends
in an unconditional `return true;` — for every callback, parameters, block
flag and `numtimes` value; with `numtimes = 0` it enqueues nothing, leaves
the queue and every completion counter unchanged, and, the fresh blocking
counter still being `0`, the spin-wait guard `while (blockwait)` fails at
its first check even when `block = true`, so the call returns
immediately. -/
theorem claim_C10 :
    (∀ (s : PoolState) (beh : Behavior) (N : Nat) (block : Bool) (c : Nat),
        (RunTask s beh N block c).2 = true)
    ∧ (∀ (s : PoolState) (beh : Behavior) (block : Bool) (c : Nat),
        (RunTask s beh 0 block c).1.m_TaskList = s.m_TaskList
        ∧ (RunTask s beh 0 block c).1.counters = s.counters)
    ∧ (∀ (s : PoolState) (beh : Behavior) (block : Bool) (c : Nat),
        s.counters c = 0 → (RunTask s beh 0 block c).1.counters c = 0) := by
  refine ⟨fun _ _ _ _ _ => rfl, ?_, ?_⟩
  · intro s beh block c
    constructor <;> rfl
  · intro s beh block c h
    simpa [RunTask, runTaskEnqueue, runTaskEnqueueAux] using h

/-- **C10 (witness).** Concrete instance of the `numtimes = 0` case with a
zeroed counter. -/
theorem claim_C10_witness :
    (RunTask (initState 1) (fun _ => TASK_RETURN.TR_OK) 0 true 0).1.counters 0 = 0 :=
  claim_C10.2.2 (initState 1) (fun _ => TASK_RETURN.TR_OK) true 0 rfl

/-- **C3 (amended).** `Flush` executes every currently queued task, in
order, on the calling thread, invoking each callback exactly once and
discarding the returned disposition — no `Rerun` looping and no `Requeue`
re-append — decrements the completion counter of every queued task that
carries one regardless of the returned disposition, and returns with the
queue empty. -/
theorem claim_C3 (s : PoolState) :
    (Flush s).m_TaskList = []
    ∧ (Flush s).log
        = s.log
          ++ s.m_TaskList.map
              (fun t => (t.m_TaskNumber, t.invocations, t.m_Task t.invocations))
    ∧ (∀ x, (Flush s).counters x = s.counters x - refCount s.m_TaskList x)
    ∧ (Flush s).running = s.running := by
  obtain ⟨h1, h2, h3, h4, h5, h6, h7, h8⟩ := flushList_char s.m_TaskList s
  exact ⟨rfl, h3, h4, h2⟩

/-- **C3 (counterexample).** On `requeueOnceState`, the claim as stated
predicts that the task returning `TR_REQUEUE` is re-appended and executed
a second time within the same `Flush` call, and that its (non-terminal)
disposition leaves the completion counter alone.  The code instead invokes
the callback exactly once — the log gains a single entry, recording the
discarded `TR_REQUEUE` — and decrements the counter from `1` to `0`. -/
theorem claim_C3_counterexample :
    (Flush requeueOnceState).log = [(0, 0, TASK_RETURN.TR_REQUEUE)]
    ∧ ¬(2 ≤ (Flush requeueOnceState).log.length)
    ∧ (Flush requeueOnceState).counters 0 = 0
    ∧ (Flush requeueOnceState).m_TaskList = [] := by
  refine ⟨?_, ?_, ?_, ?_⟩ <;> simp [Flush, flushList, requeueOnceState, initState]

/-- **C6.** On a dequeued task whose callback returns `TR_RERUN`, the
worker re-invokes the same task's callback immediately, in a loop, until a
non-`TR_RERUN` disposition is returned: if the callback answers `TR_RERUN`
on its first `k` invocations and something else on invocation `k`, the
rerun loop performs exactly `k + 1` invocations (the log grows by exactly
those entries) and neither the queue nor any completion counter is touched
until the loop ends; only then is the final disposition interpreted —
`TR_OK` decrements the task's counter, `TR_REQUEUE` re-enqueues the
task. -/
theorem claim_C6 (beh : Behavior) (start k fuel : Nat)
    (h1 : ∀ i, i < k → beh (start + i) = TASK_RETURN.TR_RERUN)
    (h2 : beh (start + k) ≠ TASK_RETURN.TR_RERUN) (h3 : k < fuel) :
    rerunLoop beh start fuel = some (beh (start + k), start + k + 1)
    ∧ ∀ (s : PoolState) (t : STaskInfo), t.m_Task = beh → t.invocations = start →
        ∃ s', execTask s t fuel = some s'
          ∧ s'.log = s.log ++ invocationLog t (start + k + 1)
          ∧ s'.log.length = s.log.length + (k + 1)
          ∧ (beh (start + k) = TASK_RETURN.TR_OK →
              s'.m_TaskList = s.m_TaskList
              ∧ (∀ c, t.m_pActionRef = some c → s'.counters c = s.counters c - 1)
              ∧ (t.m_pActionRef = none → s'.counters = s.counters))
          ∧ (beh (start + k) = TASK_RETURN.TR_REQUEUE →
              s'.counters = s.counters
              ∧ s'.m_TaskList
                  = s.m_TaskList ++ [{ t with invocations := start + k + 1 }]) := by
  have hloop := rerunLoop_eq beh k start fuel h1 h2 h3
  refine ⟨hloop, ?_⟩
  intro s t hbeh hstart
  subst hbeh
  subst hstart
  have hloglen : (invocationLog t (t.invocations + k + 1)).length = k + 1 := by
    simp [invocationLog]
    omega
  by_cases hreq : t.m_Task (t.invocations + k) = TASK_RETURN.TR_REQUEUE
  · refine ⟨{ s with
        log := s.log ++ invocationLog t (t.invocations + k + 1)
        m_TaskList :=
          s.m_TaskList ++ [{ t with invocations := t.invocations + k + 1 }] },
      ?_, rfl, ?_, ?_, ?_⟩
    · simp only [execTask, hloop]
      simp [hreq]
    · simp [hloglen]
    · intro hok
      rw [hok] at hreq
      simp at hreq
    · intro _
      exact ⟨rfl, rfl⟩
  · refine ⟨{ s with
        log := s.log ++ invocationLog t (t.invocations + k + 1)
        counters := fun x =>
          if t.m_pActionRef = some x then s.counters x - 1 else s.counters x
        finished := fun x =>
          if t.m_pActionRef = some x then s.finished x + 1 else s.finished x },
      ?_, rfl, ?_, ?_, ?_⟩
    · simp only [execTask, hloop]
      simp [hreq]
    · simp [hloglen]
    · intro _
      refine ⟨rfl, ?_, ?_⟩
      · intro c hc; simp [hc]
      · intro hc; funext x; simp [hc]
    · intro h; exact absurd h hreq

/-- **C6 (witness).** A callback answering `TR_RERUN` on its first four
invocations and `TR_OK` on the fifth is run to completion by a single
rerun loop of five invocations. -/
theorem claim_C6_witness :
    rerunLoop (fun i => if i < 4 then TASK_RETURN.TR_RERUN else TASK_RETURN.TR_OK)
        0 5
      = some (TASK_RETURN.TR_OK, 5) := by
  have h := claim_C6
    (fun i => if i < 4 then TASK_RETURN.TR_RERUN else TASK_RETURN.TR_OK)
    0 4 5 (by decide) (by decide) (by decide)
  simpa using h.1

/-- **C4 (counterexample).** The claim as stated says the worker handling a
`TR_REQUEUE` disposition re-raises the run signal.  The `TR_REQUEUE`
branch of `WorkerThreadProc` contains no `ReleaseSemaphore` call: on the
concrete requeue transition below, the count of run-signal raises is
unchanged. -/
theorem claim_C4_counterexample :
    ¬(∃ s', execTask { requeueRunningState with running := [] } requeueTask 1
          = some s'
        ∧ requeueRunningState.runRaises < s'.runRaises) := by
  rintro ⟨s', hex, hlt⟩
  have hval : execTask { requeueRunningState with running := [] } requeueTask 1
      = some { requeueRunningState with
          running := []
          log := [(0, 0, TASK_RETURN.TR_REQUEUE)]
          m_TaskList := [{ requeueTask with invocations := 1 }] } := by
    simp [execTask, rerunLoop, requeueTask, invocationLog, requeueRunningState,
      initState, List.range_succ]
  rw [hval] at hex
  cases hex
  simp [requeueRunningState, initState] at hlt

/-- **C4 (amended).** For every dequeued task whose callback's rerun loop
ends with the `TR_REQUEUE` disposition, the worker pushes that same task
onto the tail of the queue with its completion reference untouched (the
counter still reflects it as pending, and no counter moves); it does
*not* re-raise the run signal — the requeued task is picked up by the
same still-draining worker or by another already-awake one. -/
theorem claim_C4 (s : PoolState) (t : STaskInfo) (fuel stop : Nat)
    (h : rerunLoop t.m_Task t.invocations fuel
        = some (TASK_RETURN.TR_REQUEUE, stop)) :
    ∃ s', execTask s t fuel = some s'
      ∧ s'.m_TaskList = s.m_TaskList ++ [{ t with invocations := stop }]
      ∧ ({ t with invocations := stop } : STaskInfo).m_pActionRef = t.m_pActionRef
      ∧ s'.counters = s.counters
      ∧ s'.finished = s.finished
      ∧ s'.runRaises = s.runRaises
      ∧ s'.running = s.running := by
  refine ⟨{ s with
      log := s.log ++ invocationLog t stop
      m_TaskList := s.m_TaskList ++ [{ t with invocations := stop }] },
    ?_, rfl, rfl, rfl, rfl, rfl, rfl⟩
  simp only [execTask, h]
  simp

/-- **C4 (witness).** The amended statement at the concrete requeue
transition of `requeueRunningState`. -/
theorem claim_C4_witness :
    ∃ s', execTask { requeueRunningState with running := [] } requeueTask 1
        = some s'
      ∧ s'.m_TaskList
          = ({ requeueRunningState with running := [] } : PoolState).m_TaskList
            ++ [{ requeueTask with invocations := 1 }]
      ∧ ({ requeueTask with invocations := 1 } : STaskInfo).m_pActionRef
          = requeueTask.m_pActionRef
      ∧ s'.counters
          = ({ requeueRunningState with running := [] } : PoolState).counters
      ∧ s'.finished
          = ({ requeueRunningState with running := [] } : PoolState).finished
      ∧ s'.runRaises
          = ({ requeueRunningState with running := [] } : PoolState).runRaises
      ∧ s'.running
          = ({ requeueRunningState with running := [] } : PoolState).running := by
  have h := claim_C4 { requeueRunningState with running := [] } requeueTask 1 1
    (by rfl)
  simpa using h

/-- **C7 (code bug).** `CThreadPool::WaitForAllTasks` receives the
`milliseconds` timeout documented in the header ("waits ... until
milliseconds expires") but never reads it: the polling branch is
`while (!m_TaskList.empty()) Sleep(1);`.  Formally: the result is
identical for any two timeout values; on a one-worker pool whose queue is
never observed empty the loop is still spinning after any number of
polls, whatever the timeout (the claim requires return once the timeout
elapses); the zero-worker delegation to `Flush` does hold. -/
theorem claim_C7 :
    (∀ (s : PoolState) (ms ms' : Nat) (obs : Nat → Bool) (fuel : Nat),
        WaitForAllTasks s ms obs fuel = WaitForAllTasks s ms' obs fuel)
    ∧ (∀ (ms fuel : Nat),
        (WaitForAllTasks (initState 1) ms (fun _ => false) fuel).2 = none)
    ∧ (∀ (s : PoolState) (ms : Nat) (obs : Nat → Bool) (fuel : Nat),
        WaitForAllTasks { s with threadCount := 0 } ms obs fuel
          = (Flush { s with threadCount := 0 }, some 0)) := by
  refine ⟨fun _ _ _ _ _ => rfl, ?_, ?_⟩
  · intro ms fuel
    simp [WaitForAllTasks, initState, waitLoop_never_empty]
  · intro s ms obs fuel
    simp [WaitForAllTasks]

theorem toSigned32_coreSum32 (x : Int) (hlo : -(2 ^ 31) ≤ x) (hhi : x < 2 ^ 31) :
    toSigned32 (x.emod (2 ^ 32)).toNat = x := by
  have hpos : (0 : Int) < 2 ^ 32 := by norm_num
  have h0 : 0 ≤ x.emod (2 ^ 32) := Int.emod_nonneg x (by norm_num)
  have h1 : x.emod (2 ^ 32) < 2 ^ 32 := Int.emod_lt_of_pos x hpos
  have hcast : ((x.emod (2 ^ 32)).toNat : Int) = x.emod (2 ^ 32) :=
    Int.toNat_of_nonneg h0
  rcases le_or_lt 0 x with hx | hx
  · have hval : x.emod (2 ^ 32) = x := Int.emod_eq_of_lt hx (by omega)
    have hlt : (x.emod (2 ^ 32)).toNat < 2 ^ 31 := by omega
    unfold toSigned32
    rw [Nat.mod_eq_of_lt (by omega)]
    rw [if_pos (by omega)]
    omega
  · have hval : x.emod (2 ^ 32) = x + 2 ^ 32 := by
      have h2 : (x + 2 ^ 32 * 1).emod (2 ^ 32) = x.emod (2 ^ 32) :=
        Int.add_mul_emod_self_left x (2 ^ 32) 1
      rw [mul_one] at h2
      rw [← h2]
      exact Int.emod_eq_of_lt (by omega) (by omega)
    have hge : ¬((x.emod (2 ^ 32)).toNat < 2 ^ 31) := by omega
    unfold toSigned32
    rw [Nat.mod_eq_of_lt (by omega)]
    rw [if_neg (by omega)]
    omega

/-- **C9.** Thread-count resolution.  The two-argument factory resolves to
`threads_per_core * max(1, detected_core_count + core_count_adjustment)`
(computed by the source as the unsigned 32-bit sum
`dwNumberOfProcessors + core_count_adjustment` reinterpreted as a signed
`int`, clamped below by `1`, then multiplied in `size_t`), and the
one-argument factory yields exactly `thread_count`, `0` included; in both
cases `GetNumThreads()` reports that fixed count, for inputs within the
machine word sizes the source uses (`cores` a 32-bit `DWORD`, the adjusted
sum within `int` range, the resulting count within the 32-bit `UINT`
through which `GetNumThreads` casts). -/
theorem claim_C9 :
    (∀ (tpc : Nat) (adj : Int) (cores : Nat),
        cores < 2 ^ 32 →
        -(2 ^ 31) ≤ (cores : Int) + adj → (cores : Int) + adj < 2 ^ 31 →
        (tpc : Int) * max 1 ((cores : Int) + adj) < 2 ^ 32 →
        (GetNumThreads (createPerCore tpc adj cores) : Int)
          = (tpc : Int) * max 1 ((cores : Int) + adj))
    ∧ (∀ tc : Nat, tc < 2 ^ 32 → GetNumThreads (createCount tc) = tc) := by
  constructor
  · intro tpc adj cores hcores hlo hhi hprod
    have hsig : toSigned32 (coreSum32 cores adj) = (cores : Int) + adj := by
      unfold coreSum32
      exact toSigned32_coreSum32 _ hlo hhi
    have hmax1 : (1 : Int) ≤ max 1 ((cores : Int) + adj) := le_max_left _ _
    have htn : ((max 1 ((cores : Int) + adj)).toNat : Int)
        = max 1 ((cores : Int) + adj) := Int.toNat_of_nonneg (by omega)
    have hprodNat : tpc * (max 1 ((cores : Int) + adj)).toNat < 2 ^ 32 := by
      have : ((tpc * (max 1 ((cores : Int) + adj)).toNat : Nat) : Int)
          = (tpc : Int) * max 1 ((cores : Int) + adj) := by
        push_cast [htn]
        ring
      omega
    unfold GetNumThreads createPerCore resolvedThreadCount initState
    rw [hsig]
    simp only
    rw [Nat.mod_eq_of_lt (by omega), Nat.mod_eq_of_lt (by omega)]
    push_cast [htn]
    ring
  · intro tc htc
    unfold GetNumThreads createCount initState
    simp only
    rw [Nat.mod_eq_of_lt (by omega), Nat.mod_eq_of_lt (by omega)]

theorem refCount_singleton (t : STaskInfo) (x : Nat) :
    refCount [t] x = if t.m_pActionRef = some x then 1 else 0 := by
  by_cases h : t.m_pActionRef = some x <;> simp [refCount, h]

theorem refCount_rangeTasks (beh : Behavior) (N : Nat) (block : Bool) (c x : Nat) :
    refCount
        ((List.range N).map
          (fun i => (⟨beh, i, if block then some c else none, 0⟩ : STaskInfo))) x
      = if block = true ∧ x = c then N else 0 := by
  induction N with
  | zero => simp [refCount]
  | succ n ih =>
      rw [List.range_succ, List.map_append, refCount_append, ih]
      simp only [List.map_cons, List.map_nil, refCount_singleton]
      by_cases hb : block = true
      · by_cases hx : x = c
        · simp [hb, hx]
        · have hcx : ¬c = x := fun h => hx h.symm
          simp [hb, hx, hcx]
      · simp [hb]

theorem execTask_cases (s : PoolState) (t : STaskInfo) (fuel : Nat)
    (s' : PoolState) (h : execTask s t fuel = some s') :
    ∃ ret stop, rerunLoop t.m_Task t.invocations fuel = some (ret, stop)
      ∧ ((ret = TASK_RETURN.TR_REQUEUE
            ∧ s' = { s with
                log := s.log ++ invocationLog t stop
                m_TaskList := s.m_TaskList ++ [{ t with invocations := stop }] })
        ∨ (ret ≠ TASK_RETURN.TR_REQUEUE
            ∧ s' = { s with
                log := s.log ++ invocationLog t stop
                counters := fun x =>
                  if t.m_pActionRef = some x then s.counters x - 1
                  else s.counters x
                finished := fun x =>
                  if t.m_pActionRef = some x then s.finished x + 1
                  else s.finished x })) := by
  cases hr : rerunLoop t.m_Task t.invocations fuel with
  | none => simp [execTask, hr] at h
  | some pr =>
      obtain ⟨ret, stop⟩ := pr
      refine ⟨ret, stop, rfl, ?_⟩
      by_cases hreq : ret = TASK_RETURN.TR_REQUEUE
      · left
        refine ⟨hreq, ?_⟩
        simp only [execTask, hr, hreq] at h
        simp at h
        exact h.symm
      · right
        refine ⟨hreq, ?_⟩
        simp only [execTask, hr] at h
        simp [hreq] at h
        exact h.symm

theorem Step.threadCount_eq {l : Label} {s s' : PoolState} (h : Step l s s') :
    s'.threadCount = s.threadCount := by
  cases h with
  | runTask s beh N block c hfresh =>
      simpa [runTaskEnqueue] using
        (runTaskEnqueueAux_frame s beh block c N).2.2.2.1
  | dequeue s t rest hw hq => rfl
  | finish s t l1 l2 fuel s' hw hr hex =>
      obtain ⟨ret, stop, hrl, hcase⟩ := execTask_cases _ _ _ _ hex
      rcases hcase with ⟨_, rfl⟩ | ⟨_, rfl⟩ <;> rfl
  | purge s => rfl
  | flush s =>
      simpa [Flush] using (flushList_char s.m_TaskList s).2.2.2.2.2.2.1

theorem Step.members_frozen {l : Label} {s s' : PoolState} (h : Step l s s')
    (d : Nat) (hpos : 0 < s.members d) : s'.members d = s.members d := by
  cases h with
  | runTask s beh N block c hfresh =>
      have hm := runTaskEnqueueAux_members s beh block c N d
      have hmm : (runTaskEnqueue s beh N block c).members d
          = s.members d + (if block = true ∧ d = c then N else 0) := by
        simp only [runTaskEnqueue]; simpa using hm
      rw [hmm]
      by_cases hcase : block = true ∧ d = c
      · obtain ⟨hb1, hb2⟩ := hcase
        subst hb2
        have := hfresh hb1
        omega
      · simp [hcase]
  | dequeue s t rest hw hq => rfl
  | finish s t l1 l2 fuel s' hw hr hex =>
      obtain ⟨ret, stop, hrl, hcase⟩ := execTask_cases _ _ _ _ hex
      rcases hcase with ⟨_, rfl⟩ | ⟨_, rfl⟩ <;> rfl
  | purge s => rfl
  | flush s =>
      have := (flushList_char s.m_TaskList s).2.2.2.2.2.1
      simp [Flush, this]

theorem Step.inv {l : Label} {s s' : PoolState} (h : Step l s s') (hi : Inv s) :
    Inv s' := by
  cases h with
  | runTask s beh N block c hfresh =>
      intro x
      obtain ⟨h1, h2⟩ := hi x
      have hc := runTaskEnqueueAux_counters s beh block c N x
      have hm := runTaskEnqueueAux_members s beh block c N x
      have hl := runTaskEnqueueAux_m_TaskList s beh block c N
      have hfr := runTaskEnqueueAux_frame s beh block c N
      have hq : refCount (runTaskEnqueue s beh N block c).m_TaskList x
          = refCount s.m_TaskList x + (if block = true ∧ x = c then N else 0) := by
        simp only [runTaskEnqueue]
        simp [hl, refCount_append, refCount_rangeTasks]
      have hcc : (runTaskEnqueue s beh N block c).counters x
          = s.counters x + (if block = true ∧ x = c then (N : Int) else 0) := by
        simp only [runTaskEnqueue]; simpa using hc
      have hmm : (runTaskEnqueue s beh N block c).members x
          = s.members x + (if block = true ∧ x = c then N else 0) := by
        simp only [runTaskEnqueue]; simpa using hm
      have hff : (runTaskEnqueue s beh N block c).finished x = s.finished x := by
        simp only [runTaskEnqueue]; simp [hfr.2.1]
      have hrr : (runTaskEnqueue s beh N block c).running = s.running := by
        simp only [runTaskEnqueue]; simp [hfr.1]
      constructor
      · rw [hcc, hmm, hff]
        by_cases hcase : block = true ∧ x = c
        · simp only [if_pos hcase]
          omega
        · simp only [if_neg hcase]
          omega
      · rw [hq, hrr, hff, hmm]
        by_cases hcase : block = true ∧ x = c
        · simp only [if_pos hcase]
          omega
        · simp only [if_neg hcase]
          omega
  | dequeue s t rest hw hq =>
      intro x
      obtain ⟨h1, h2⟩ := hi x
      rw [hq, refCount_cons] at h2
      refine ⟨h1, ?_⟩
      simp only [refCount_append, refCount_singleton]
      omega
  | finish s t l1 l2 fuel s' hw hr hex =>
      obtain ⟨ret, stop, hrl, hcase⟩ := execTask_cases _ _ _ _ hex
      have hrun : ∀ x, refCount s.running x
          = refCount l1 x + ((if t.m_pActionRef = some x then 1 else 0) + refCount l2 x) := by
        intro x
        rw [hr, refCount_append, refCount_cons]
      rcases hcase with ⟨_, rfl⟩ | ⟨_, rfl⟩
      · intro x
        obtain ⟨h1, h2⟩ := hi x
        refine ⟨h1, ?_⟩
        show refCount (s.m_TaskList ++ [{ t with invocations := stop }]) x
            + refCount (l1 ++ l2) x + s.finished x ≤ s.members x
        rw [refCount_append, refCount_append, refCount_singleton]
        have := hrun x
        simp only at this ⊢
        omega
      · intro x
        obtain ⟨h1, h2⟩ := hi x
        have := hrun x
        constructor
        · show (if t.m_pActionRef = some x then s.counters x - 1 else s.counters x)
            = (s.members x : Int)
              - ((if t.m_pActionRef = some x then s.finished x + 1
                  else s.finished x : Nat) : Int)
          by_cases hx : t.m_pActionRef = some x <;> simp [hx] <;> omega
        · show refCount s.m_TaskList x + refCount (l1 ++ l2) x
              + (if t.m_pActionRef = some x then s.finished x + 1 else s.finished x)
            ≤ s.members x
          rw [refCount_append]
          by_cases hx : t.m_pActionRef = some x <;> simp [hx] at this ⊢ <;> omega
  | purge s =>
      intro x
      obtain ⟨h1, h2⟩ := hi x
      refine ⟨h1, ?_⟩
      show refCount ([] : List STaskInfo) x + refCount s.running x + s.finished x
        ≤ s.members x
      have h0 : refCount ([] : List STaskInfo) x = 0 := rfl
      rw [h0]
      omega
  | flush s =>
      obtain ⟨g1, g2, g3, g4, g5, g6, g7, g8⟩ := flushList_char s.m_TaskList s
      intro x
      obtain ⟨h1, h2⟩ := hi x
      constructor
      · show (Flush s).counters x = ((Flush s).members x : Int)
          - ((Flush s).finished x : Int)
        have hc : (Flush s).counters x
            = s.counters x - refCount s.m_TaskList x := by simp [Flush, g4]
        have hf : (Flush s).finished x
            = s.finished x + refCount s.m_TaskList x := by simp [Flush, g5]
        have hmems : (Flush s).members x = s.members x := by simp [Flush, g6]
        rw [hc, hf, hmems]
        push_cast
        omega
      · have hf : (Flush s).finished x
            = s.finished x + refCount s.m_TaskList x := by simp [Flush, g5]
        have hmems : (Flush s).members x = s.members x := by simp [Flush, g6]
        have hrun : (Flush s).running = s.running := by simp [Flush, g2]
        have hqueue : (Flush s).m_TaskList = [] := rfl
        show refCount (Flush s).m_TaskList x + refCount (Flush s).running x
            + (Flush s).finished x ≤ (Flush s).members x
        rw [hf, hmems, hrun, hqueue]
        have h0 : refCount ([] : List STaskInfo) x = 0 := rfl
        rw [h0]
        omega

theorem inv_initState (tc : Nat) : Inv (initState tc) := by
  intro c
  simp [initState, Inv, refCount]

theorem reaches_inv {s s' : PoolState} (h : Reaches s s') (hi : Inv s) :
    Inv s' := by
  induction h with
  | refl => exact hi
  | tail hr hstep ih => obtain ⟨l, hst⟩ := hstep; exact hst.inv ih

theorem reaches_threadCount {s s' : PoolState} (h : Reaches s s') :
    s'.threadCount = s.threadCount := by
  induction h with
  | refl => rfl
  | tail hr hstep ih => obtain ⟨l, hst⟩ := hstep; rw [hst.threadCount_eq, ih]

theorem reaches_members_frozen {s s' : PoolState} (h : Reaches s s') (d : Nat)
    (hpos : 0 < s.members d) : s'.members d = s.members d := by
  induction h with
  | refl => rfl
  | tail hr hstep ih =>
      obtain ⟨l, hst⟩ := hstep
      rw [hst.members_frozen d (by omega), ih]

theorem Step.slack_le {l : Label} {s s' : PoolState} (h : Step l s s') (d : Nat) :
    slack s d ≤ slack s' d := by
  cases h with
  | runTask s beh N block c hfresh =>
      have hm := runTaskEnqueueAux_members s beh block c N d
      have hl := runTaskEnqueueAux_m_TaskList s beh block c N
      have hfr := runTaskEnqueueAux_frame s beh block c N
      have hq : refCount (runTaskEnqueue s beh N block c).m_TaskList d
          = refCount s.m_TaskList d + (if block = true ∧ d = c then N else 0) := by
        simp only [runTaskEnqueue]
        simp [hl, refCount_append, refCount_rangeTasks]
      have hmm : (runTaskEnqueue s beh N block c).members d
          = s.members d + (if block = true ∧ d = c then N else 0) := by
        simp only [runTaskEnqueue]; simpa using hm
      have hrr : (runTaskEnqueue s beh N block c).running = s.running := by
        simp only [runTaskEnqueue]; simp [hfr.1]
      have hff : (runTaskEnqueue s beh N block c).finished = s.finished := by
        simp only [runTaskEnqueue]; simp [hfr.2.1]
      simp only [slack, hq, hmm, hrr, hff]
      omega
  | dequeue s t rest hw hq =>
      have h2 : refCount s.m_TaskList d
          = (if t.m_pActionRef = some d then 1 else 0) + refCount rest d := by
        rw [hq, refCount_cons]
      simp only [slack, refCount_append, refCount_singleton, h2]
      omega
  | finish s t l1 l2 fuel s' hw hr hex =>
      obtain ⟨ret, stop, hrl, hcase⟩ := execTask_cases _ _ _ _ hex
      have hrun : refCount s.running d
          = refCount l1 d + ((if t.m_pActionRef = some d then 1 else 0)
            + refCount l2 d) := by
        rw [hr, refCount_append, refCount_cons]
      rcases hcase with ⟨_, rfl⟩ | ⟨_, rfl⟩
      · show slack s d ≤ slack { s with
            running := l1 ++ l2
            log := s.log ++ invocationLog t stop
            m_TaskList := s.m_TaskList ++ [{ t with invocations := stop }] } d
        simp only [slack, refCount_append, refCount_singleton]
        simp only at hrun ⊢
        omega
      · show slack s d ≤ slack { s with
            running := l1 ++ l2
            log := s.log ++ invocationLog t stop
            counters := fun x =>
              if t.m_pActionRef = some x then s.counters x - 1 else s.counters x
            finished := fun x =>
              if t.m_pActionRef = some x then s.finished x + 1
              else s.finished x } d
        simp only [slack, refCount_append]
        by_cases hx : t.m_pActionRef = some d <;> simp [hx] at hrun ⊢ <;> omega
  | purge s =>
      simp only [slack, PurgeAllPendingTasks, refCount, List.countP_nil]
      omega
  | flush s =>
      obtain ⟨g1, g2, g3, g4, g5, g6, g7, g8⟩ := flushList_char s.m_TaskList s
      have hf : (Flush s).finished d
          = s.finished d + refCount s.m_TaskList d := by simp [Flush, g5]
      have hmems : (Flush s).members d = s.members d := by simp [Flush, g6]
      have hrun : (Flush s).running = s.running := by simp [Flush, g2]
      have hqueue : (Flush s).m_TaskList = [] := rfl
      simp only [slack, hf, hmems, hrun, hqueue, refCount, List.countP_nil]
      omega

theorem reaches_slack_le {s s' : PoolState} (h : Reaches s s') (d : Nat) :
    slack s d ≤ slack s' d := by
  induction h with
  | refl => exact le_refl _
  | tail hr hstep ih =>
      obtain ⟨l, hst⟩ := hstep
      exact le_trans ih (hst.slack_le d)

theorem Inv.counters_ge_slack {s : PoolState} (hi : Inv s) (d : Nat) :
    (slack s d : Int) ≤ s.counters d := by
  obtain ⟨h1, h2⟩ := hi d
  simp only [slack]
  omega

theorem Step.zeroWorker {l : Label} {s s' : PoolState} (h : Step l s s')
    (h0 : s.threadCount = 0) (hf : l ≠ Label.flush) (hp : l ≠ Label.purge) :
    s'.log = s.log ∧ ∃ ext, s'.m_TaskList = s.m_TaskList ++ ext := by
  cases h with
  | runTask s beh N block c hfresh =>
      have hfr := runTaskEnqueueAux_frame s beh block c N
      have hl := runTaskEnqueueAux_m_TaskList s beh block c N
      constructor
      · simp only [runTaskEnqueue]; simp [hfr.2.2.1]
      · exact ⟨_, by simp only [runTaskEnqueue]; simpa using hl⟩
  | dequeue s t rest hw hq => exact absurd hw (by omega)
  | finish s t l1 l2 fuel s' hw hr hex => exact absurd hw (by omega)
  | purge s => exact absurd rfl hp
  | flush s => exact absurd rfl hf

theorem Step.zeroWorker_log {l : Label} {s s' : PoolState} (h : Step l s s')
    (h0 : s.threadCount = 0) (hf : l ≠ Label.flush) : s'.log = s.log := by
  cases h with
  | runTask s beh N block c hfresh =>
      have hfr := runTaskEnqueueAux_frame s beh block c N
      simp only [runTaskEnqueue]
      simp [hfr.2.2.1]
  | dequeue s t rest hw hq => exact absurd hw (by omega)
  | finish s t l1 l2 fuel s' hw hr hex => exact absurd hw (by omega)
  | purge s => rfl
  | flush s => exact absurd rfl hf

theorem reachesVia_zeroWorker_log {s s' : PoolState} (h0 : s.threadCount = 0)
    (h : ReachesVia (fun l => l ≠ Label.flush) s s') :
    s'.log = s.log ∧ s'.threadCount = 0 := by
  induction h with
  | refl => exact ⟨rfl, h0⟩
  | tail hr hstep ih =>
      obtain ⟨hlog, htc⟩ := ih
      obtain ⟨l, hfl, hst⟩ := hstep
      exact ⟨by rw [hst.zeroWorker_log htc hfl, hlog],
        by rw [hst.threadCount_eq, htc]⟩

theorem reachesVia_zeroWorker {s s' : PoolState} (h0 : s.threadCount = 0)
    (h : ReachesVia (fun l => l ≠ Label.flush ∧ l ≠ Label.purge) s s') :
    s'.log = s.log ∧ (∃ ext, s'.m_TaskList = s.m_TaskList ++ ext)
      ∧ s'.threadCount = 0 := by
  induction h with
  | refl => exact ⟨rfl, ⟨[], by simp⟩, h0⟩
  | tail hr hstep ih =>
      obtain ⟨hlog, ⟨ext, hext⟩, htc⟩ := ih
      obtain ⟨l, ⟨hfl, hpl⟩, hst⟩ := hstep
      obtain ⟨hlog2, ext2, hext2⟩ := hst.zeroWorker htc hfl hpl
      refine ⟨by rw [hlog2, hlog], ⟨ext ++ ext2, ?_⟩, by rw [hst.threadCount_eq, htc]⟩
      rw [hext2, hext, List.append_assoc]

/-- **C9 (witness).** `Create(2, 0)` on a detected 8-core machine yields
`GetNumThreads() == 16`; `Create(1, -6)` there yields `2`; `Create(5)`
yields `5`. -/
theorem claim_C9_witness :
    (GetNumThreads (createPerCore 2 0 8) : Int) = 16
    ∧ (GetNumThreads (createPerCore 1 (-6) 8) : Int) = 2
    ∧ GetNumThreads (createCount 5) = 5 := by
  refine ⟨?_, ?_, claim_C9.2 5 (by norm_num)⟩
  · have h := claim_C9.1 2 0 8 (by norm_num) (by norm_num) (by norm_num)
      (by norm_num)
    simpa using h
  · have h := claim_C9.1 1 (-6) 8 (by norm_num) (by norm_num) (by norm_num)
      (by norm_num)
    simpa using h

/-- **C2.** For every blocking `RunTask` call: the completion counter is
incremented exactly once per member task during the lock-protected enqueue
step — a single atomic transition, so the increments precede any possible
execution of the member tasks, which would have to dequeue under the same
lock; along every run of the system each counter always equals the number
of its member tasks not yet finished executing (constructed minus the ones
that reached a terminal disposition) and never goes negative; and a worker
finishing a task decrements the counter exactly once if the final
disposition is terminal, while a `TR_REQUEUE` outcome — and every
`TR_RERUN` iteration inside the rerun loop, whose result is a function of
the disposition stream alone — leaves every counter untouched. -/
theorem claim_C2 :
    (∀ (s : PoolState) (beh : Behavior) (N : Nat) (c : Nat),
        (runTaskEnqueue s beh N true c).counters c = s.counters c + N
        ∧ (runTaskEnqueue s beh N true c).members c = s.members c + N)
    ∧ (∀ (tc : Nat) (s : PoolState), Reaches (initState tc) s → ∀ c : Nat,
        s.counters c = (s.members c : Int) - (s.finished c : Int)
        ∧ 0 ≤ s.counters c)
    ∧ (∀ (s : PoolState) (t : STaskInfo) (fuel : Nat) (s' : PoolState)
        (ret : TASK_RETURN) (stop : Nat),
        rerunLoop t.m_Task t.invocations fuel = some (ret, stop) →
        execTask s t fuel = some s' →
        (ret = TASK_RETURN.TR_REQUEUE → s'.counters = s.counters)
        ∧ (ret ≠ TASK_RETURN.TR_REQUEUE →
            (∀ c, t.m_pActionRef = some c → s'.counters c = s.counters c - 1)
            ∧ (t.m_pActionRef = none → s'.counters = s.counters))) := by
  refine ⟨?_, ?_, ?_⟩
  · intro s beh N c
    have hc := runTaskEnqueueAux_counters s beh true c N c
    have hm := runTaskEnqueueAux_members s beh true c N c
    constructor
    · simp only [runTaskEnqueue]
      simpa using hc
    · simp only [runTaskEnqueue]
      simpa using hm
  · intro tc s h c
    obtain ⟨h1, h2⟩ := reaches_inv h (inv_initState tc) c
    exact ⟨h1, by omega⟩
  · intro s t fuel s' ret stop hrl hex
    obtain ⟨ret', stop', hrl', hcase⟩ := execTask_cases _ _ _ _ hex
    rw [hrl] at hrl'
    simp only [Option.some.injEq, Prod.mk.injEq] at hrl'
    obtain ⟨hre, hse⟩ := hrl'
    subst hre
    subst hse
    rcases hcase with ⟨hreq, rfl⟩ | ⟨hreq, rfl⟩
    · exact ⟨fun _ => rfl, fun hne => absurd hreq hne⟩
    · refine ⟨fun heq => absurd heq hreq, fun _ => ⟨?_, ?_⟩⟩
      · intro c hcref
        simp [hcref]
      · intro hnone
        funext x
        simp [hnone]

/-- **C2 (witness).** Concrete instances: two blocking tasks raise a fresh
counter to `2`; the invariant holds at the initial state; executing
`okTask` (terminal `TR_OK`) on a fresh pool decrements its counter by
one. -/
theorem claim_C2_witness :
    (runTaskEnqueue (initState 1) (fun _ => TASK_RETURN.TR_OK) 2 true 0).counters 0
        = (initState 1).counters 0 + 2
    ∧ (initState 1).counters 0
        = (((initState 1).members 0 : Nat) : Int) - ((initState 1).finished 0 : Int)
    ∧ okExecResult.counters 0 = (initState 1).counters 0 - 1 := by
  refine ⟨(claim_C2.1 (initState 1) (fun _ => TASK_RETURN.TR_OK) 2 0).1, ?_, ?_⟩
  · exact (claim_C2.2.1 1 (initState 1) Relation.ReflTransGen.refl 0).1
  · have h := claim_C2.2.2 (initState 1) okTask 1 okExecResult
      TASK_RETURN.TR_OK 1 rfl rfl
    exact (h.2 (by decide)).1 0 rfl

/-- **C8.** `PurgeAllPendingTasks` discards all currently queued tasks and
touches nothing else: no callback runs (the log is unchanged), no
completion counter moves, the already-dequeued executing tasks and all
remaining pool state are unaffected.  Consequently, once a still-pending
member task of counter `c` is purged, `c` can never return to zero in any
subsequent run — the blocking `RunTask` caller spinning on `c` spins
forever. -/
theorem claim_C8 :
    (∀ s : PoolState,
        (PurgeAllPendingTasks s).m_TaskList = []
        ∧ (PurgeAllPendingTasks s).running = s.running
        ∧ (PurgeAllPendingTasks s).counters = s.counters
        ∧ (PurgeAllPendingTasks s).finished = s.finished
        ∧ (PurgeAllPendingTasks s).members = s.members
        ∧ (PurgeAllPendingTasks s).log = s.log
        ∧ (PurgeAllPendingTasks s).threadCount = s.threadCount
        ∧ (PurgeAllPendingTasks s).runRaises = s.runRaises)
    ∧ (∀ (tc : Nat) (s s' : PoolState) (c : Nat),
        Reaches (initState tc) s →
        0 < refCount s.m_TaskList c →
        Reaches (PurgeAllPendingTasks s) s' →
        s'.counters c ≠ 0) := by
  constructor
  · intro s
    exact ⟨rfl, rfl, rfl, rfl, rfl, rfl, rfl, rfl⟩
  · intro tc s s' c hreach hq hreach2
    have hinv : Inv s := reaches_inv hreach (inv_initState tc)
    have hinvp : Inv (PurgeAllPendingTasks s) := (Step.purge s).inv hinv
    have hinv' : Inv s' := reaches_inv hreach2 hinvp
    obtain ⟨h1, h2⟩ := hinv c
    have hslackp : 1 ≤ slack (PurgeAllPendingTasks s) c := by
      have h0 : refCount (PurgeAllPendingTasks s).m_TaskList c = 0 := rfl
      simp only [slack, PurgeAllPendingTasks, h0]
      have h0' : refCount ([] : List STaskInfo) c = 0 := rfl
      rw [h0']
      omega
    have hslack' : 1 ≤ slack s' c :=
      le_trans hslackp (reaches_slack_le hreach2 c)
    have hge := hinv'.counters_ge_slack c
    omega

/-- **C8 (witness).** Submit one blocking task on a one-worker pool, purge
before the worker dequeues it: the caller's counter is stuck nonzero. -/
theorem claim_C8_witness :
    (PurgeAllPendingTasks
        (runTaskEnqueue (initState 1) (fun _ => TASK_RETURN.TR_OK) 1 true 0)).counters 0
      ≠ 0 := by
  refine claim_C8.2 1
    (runTaskEnqueue (initState 1) (fun _ => TASK_RETURN.TR_OK) 1 true 0) _ 0
    (Relation.ReflTransGen.single
      ⟨Label.runTask,
        Step.runTask (initState 1) (fun _ => TASK_RETURN.TR_OK) 1 true 0
          (fun _ => rfl)⟩)
    (by decide)
    Relation.ReflTransGen.refl

/-- **C1.** Blocking submission.  With at least one worker, a blocking
`RunTask(callback, p0, p1, N, block = true)` call enters the spin-wait
(`runTaskWaitGuard` is `true`) whose exit condition is that the call's
fresh completion counter has returned to zero, and in every state the
system can subsequently reach, that counter is zero exactly when all `N`
member tasks have reached a terminal (`Done`) disposition — `N` tasks were
constructed and each terminal disposition removes one pending member, so
zero means each member finished exactly once.  With zero workers the wait
guard is `false` — the call does not wait even though `block = true` —
and, until a `Flush` is invoked, no callback ever runs (the log is frozen:
worker transitions are disabled), while absent the explicit `Purge`
discard the enqueued tasks also stay in the queue, which only grows at
the tail. -/
theorem claim_C1 :
    (∀ (tc : Nat) (s s' : PoolState) (beh : Behavior) (N c : Nat),
        0 < tc → 0 < N →
        Reaches (initState tc) s → s.members c = 0 →
        Reaches (runTaskEnqueue s beh N true c) s' →
        runTaskWaitGuard s true = true
        ∧ (s'.counters c = 0 ↔ s'.finished c = N))
    ∧ (∀ (s : PoolState) (beh : Behavior) (N c : Nat) (s' : PoolState),
        s.threadCount = 0 →
        runTaskWaitGuard s true = false
        ∧ (ReachesVia (fun l => l ≠ Label.flush)
              (runTaskEnqueue s beh N true c) s' →
            s'.log = (runTaskEnqueue s beh N true c).log)
        ∧ (ReachesVia (fun l => l ≠ Label.flush ∧ l ≠ Label.purge)
              (runTaskEnqueue s beh N true c) s' →
            ∃ ext, s'.m_TaskList
                = (runTaskEnqueue s beh N true c).m_TaskList ++ ext)) := by
  constructor
  · intro tc s s' beh N c htc hN hreach hfresh hreach2
    have htc' : s.threadCount = tc := by
      have h := reaches_threadCount hreach
      simpa [initState] using h
    have hpos : 0 < s.threadCount := by omega
    constructor
    · simp [runTaskWaitGuard, hpos]
    · have hinvs : Inv s := reaches_inv hreach (inv_initState tc)
      have hstep : Step Label.runTask s (runTaskEnqueue s beh N true c) :=
        Step.runTask s beh N true c (fun _ => hfresh)
      have hinv1 : Inv (runTaskEnqueue s beh N true c) := hstep.inv hinvs
      have hinv' : Inv s' := reaches_inv hreach2 hinv1
      have hm := runTaskEnqueueAux_members s beh true c N c
      have hm1 : (runTaskEnqueue s beh N true c).members c = N := by
        simp only [runTaskEnqueue]
        simp [hm, hfresh]
      have hm' : s'.members c = N := by
        rw [reaches_members_frozen hreach2 c (by omega), hm1]
      obtain ⟨e1, e2⟩ := hinv' c
      rw [hm'] at e1 e2
      constructor
      · intro h
        omega
      · intro h
        omega
  · intro s beh N c s' h0
    have h1 : (runTaskEnqueue s beh N true c).threadCount = 0 := by
      have hfr := runTaskEnqueueAux_frame s beh true c N
      simp only [runTaskEnqueue]
      simp [hfr.2.2.2.1, h0]
    refine ⟨by simp [runTaskWaitGuard, h0], ?_, ?_⟩
    · intro hvia
      exact (reachesVia_zeroWorker_log h1 hvia).1
    · intro hvia
      exact (reachesVia_zeroWorker h1 hvia).2.1

/-- **C1 (witness).** With one worker: immediately after the blocking
enqueue of one task, the counter is `1 ≠ 0` and no task has finished — the
two sides of the exit equivalence are both false; with zero workers the
wait guard is off. -/
theorem claim_C1_witness :
    (runTaskWaitGuard (initState 1) true = true
      ∧ ((runTaskEnqueue (initState 1) (fun _ => TASK_RETURN.TR_OK) 1 true 0).counters 0 = 0
          ↔ (runTaskEnqueue (initState 1) (fun _ => TASK_RETURN.TR_OK) 1 true 0).finished 0 = 1))
    ∧ runTaskWaitGuard (initState 0) true = false := by
  constructor
  · exact claim_C1.1 1 (initState 1) _ (fun _ => TASK_RETURN.TR_OK) 1 0
      (by decide) (by decide) Relation.ReflTransGen.refl rfl
      Relation.ReflTransGen.refl
  · exact (claim_C1.2 (initState 0) (fun _ => TASK_RETURN.TR_OK) 1 0
      (initState 0) rfl).1

end Pool
